import Mathlib

/-!
Verification of the interval-annotation timeline engine of
`flipper_annotator.py` (repository weertman/flipper_annotator).

The engine keeps a Python list `self.annotations` of dicts
`{start_frame, end_frame, type}` plus an aliased reference
`self.current_annotation` to the annotation currently being extended.
We embed that state shallowly: `fixed` holds the list elements other than
an attached current annotation, `curAnn` holds the content of
`current_annotation`, and `attached` records whether that dict is the
last element of the list (it stops being so after `save_annotations`
resets the list, or after `load_annotations` replaces it).
-/

namespace Flipper

/-- One annotation row, as built throughout `flipper_annotator.py`:
a closed frame range `[start_frame, end_frame]` plus its label string
(stored under the dict key `type`). -/
structure Interval where
  start_frame : Nat
  end_frame : Nat
  type : String
  deriving DecidableEq

/-- Frame `n` lies in the closed range of interval `i`
(the test `annotation['start_frame'] <= current_frame <= annotation['end_frame']`
at line 398 of `flipper_annotator.py`). -/
def coversF (i : Interval) (n : Nat) : Prop :=
  i.start_frame ≤ n ∧ n ≤ i.end_frame

instance (i : Interval) (n : Nat) : Decidable (coversF i n) :=
  inferInstanceAs (Decidable (_ ∧ _))

/-- Two intervals share no frame in their closed ranges. -/
def RangeDisjoint (a b : Interval) : Prop :=
  ∀ n : Nat, ¬(coversF a n ∧ coversF b n)

/-- No frame is contained in the closed ranges of two distinct
(by position) intervals of the list. -/
def noOverlap (l : List Interval) : Prop :=
  l.Pairwise RangeDisjoint

/-- The per-annotation body of the loop in
`process_overlapping_annotations` (lines 396-419): the list of
annotations appended to `updated_annotations` for one input annotation. -/
def splitInterval (current_frame : Nat) (a : Interval) : List Interval :=
  if a.start_frame ≤ current_frame ∧ current_frame ≤ a.end_frame then
    (if a.start_frame < current_frame then
      [⟨a.start_frame, current_frame - 1, a.type⟩] else []) ++
    (if current_frame < a.end_frame then
      [⟨current_frame + 1, a.end_frame, a.type⟩] else [])
  else
    [a]

/-- `VideoAnnotationApp.process_overlapping_annotations` (lines 394-421):
the loop accumulating `updated_annotations`. -/
def process_overlapping_annotations (anns : List Interval) (current_frame : Nat) :
    List Interval :=
  anns.foldl (fun acc a => acc ++ splitInterval current_frame a) []

theorem foldl_append_splits (f : Nat) :
    ∀ (l acc : List Interval),
      l.foldl (fun acc a => acc ++ splitInterval f a) acc = acc ++ l.flatMap (splitInterval f)
  | [], acc => by simp
  | a :: t, acc => by
    simp only [List.foldl_cons, List.flatMap_cons]
    rw [foldl_append_splits f t (acc ++ splitInterval f a)]
    simp

theorem process_eq_flatMap (l : List Interval) (f : Nat) :
    process_overlapping_annotations l f = l.flatMap (splitInterval f) := by
  simpa using foldl_append_splits f l []

theorem mem_process (b : Interval) (l : List Interval) (f : Nat) :
    b ∈ process_overlapping_annotations l f ↔ ∃ a ∈ l, b ∈ splitInterval f a := by
  rw [process_eq_flatMap, List.mem_flatMap]

/-- Any frame covered by an output piece was covered by its source
interval, and the split frame itself is covered by no output piece. -/
theorem split_covers {a b : Interval} {f : Nat} (hb : b ∈ splitInterval f a) :
    ∀ n, coversF b n → coversF a n ∧ n ≠ f := by
  obtain ⟨s, e, t⟩ := a
  intro n hc
  simp only [splitInterval] at hb
  simp only [coversF] at hc ⊢
  split_ifs at hb with h1 h2 h3 <;>
    simp only [List.mem_append, List.mem_singleton, List.not_mem_nil, List.append_nil,
      List.nil_append, or_false, false_or] at hb
  · rcases hb with rfl | rfl <;> simp_all <;> omega
  · subst hb; simp_all; omega
  · subst hb; simp_all; omega
  · subst hb; simp_all; omega

theorem split_valid {a b : Interval} {f : Nat}
    (ha : a.start_frame ≤ a.end_frame) (hb : b ∈ splitInterval f a) :
    b.start_frame ≤ b.end_frame := by
  obtain ⟨s, e, t⟩ := a
  simp only at ha
  simp only [splitInterval] at hb
  split_ifs at hb with h1 h2 h3 <;>
    simp only [List.mem_append, List.mem_singleton, List.not_mem_nil, List.append_nil,
      List.nil_append, or_false, false_or] at hb
  · rcases hb with rfl | rfl <;> simp <;> omega
  · subst hb; simp; omega
  · subst hb; simp; omega
  · subst hb; simp; omega

theorem split_not_covers {a b : Interval} {f : Nat} (hb : b ∈ splitInterval f a) :
    ¬ coversF b f :=
  fun hc => (split_covers hb f hc).2 rfl

/-- The mutable state of `VideoAnnotationApp` that the timeline engine
touches. `fixed` is `self.annotations` without the attached current
annotation; `curAnn` is the content of the dict referenced by
`self.current_annotation` (`none` when that field is `None`); `attached`
records whether that dict is the last element of `self.annotations`
(true from `annotate` until `save_annotations` or `load_annotations`
replaces the list). -/
structure AppState where
  fixed : List Interval
  curAnn : Option Interval
  attached : Bool
  deriving DecidableEq

/-- The observable `self.annotations` list: `fixed` plus the attached
current annotation (which `annotate` appends at line 389). -/
def annots (s : AppState) : List Interval :=
  s.fixed ++ (match s.curAnn, s.attached with
    | some a, true => [a]
    | _, _ => [])

/-- Initial state: `self.annotations = []`, `self.current_annotation = None`
(lines 187, 196). -/
def emptyState : AppState :=
  ⟨[], none, false⟩

/-- `VideoAnnotationApp.annotate` (lines 371-392) invoked with label
`new_type` while the video sits at `current_frame`: close the current
annotation by setting its `end_frame` (line 377; visible in the list only
when the dict is still attached), run overlap resolution over the whole
list (line 381), then build the new annotation, make it current, and
append it to the list (lines 384-389). -/
def annotate (new_type : String) (current_frame : Nat) (s : AppState) : AppState :=
  let closedList := s.fixed ++ (match s.curAnn, s.attached with
    | some a, true => [{ a with end_frame := current_frame }]
    | _, _ => [])
  { fixed := process_overlapping_annotations closedList current_frame
    curAnn := some ⟨current_frame, current_frame, new_type⟩
    attached := true }

/-- The annotation-extension step of `VideoAnnotationApp.next_frame`
(lines 301-304): when a current annotation exists, its `end_frame` is set
to the frame about to be displayed. This mutates the dict in place, so the
list changes exactly when the dict is attached. -/
def next_frame_extend (current_frame : Nat) (s : AppState) : AppState :=
  match s.curAnn with
  | some a => { s with curAnn := some { a with end_frame := current_frame } }
  | none => s

/-- Closing the current annotation without starting a new one, i.e. the
`self.current_annotation = None` half of lines 376-378 on its own
(the interval stays in the list; only the reference is dropped). This is
the spec's `finalize()`; the source has no standalone control path for it
beyond clearing the reference. -/
def finalizeAnn (s : AppState) : AppState :=
  ⟨annots s, none, false⟩

/-- `VideoAnnotationApp.save_annotations` (lines 428-444) on the path where
a file name was chosen: the rows written to the table are the current
`self.annotations` in list order (pandas `DataFrame(...)` then `to_csv`
keeps row order; the tabular file itself is an external collaborator and
is modelled as the row list), after which the list is reset to `[]`
(line 440). `self.current_annotation` is left untouched, so a current
annotation becomes detached from the (now empty) list. -/
def save_annotations (s : AppState) : List Interval × AppState :=
  (annots s, ⟨[], s.curAnn, false⟩)

/-- `VideoAnnotationApp.load_annotations` (lines 277-283) on the path where
a file was chosen: `self.annotations` is replaced wholesale by the rows
read back (again modelled at row level; pandas round-trips the integer
fields and label strings of this app losslessly).
`self.current_annotation` is untouched and thus detached. -/
def load_annotations (records : List Interval) (s : AppState) : AppState :=
  ⟨records, s.curAnn, false⟩

/-- The host-driven commands of the engine. -/
inductive Cmd where
  | beginC : String → Nat → Cmd
  | extendC : Nat → Cmd
  | finalizeC : Cmd
  | saveC : Cmd
  deriving DecidableEq

def Cmd.step (s : AppState) : Cmd → AppState
  | .beginC l f => annotate l f s
  | .extendC f => next_frame_extend f s
  | .finalizeC => finalizeAnn s
  | .saveC => (save_annotations s).2

def runCmds (cmds : List Cmd) (s : AppState) : AppState :=
  cmds.foldl Cmd.step s

/-- The frame arguments appearing in `cmds` are non-decreasing and all
at least `f` (forward playback: the frame counter never moves back). -/
def monoFrom (f : Nat) : List Cmd → Bool
  | [] => true
  | .beginC _ g :: rest => if f ≤ g then monoFrom g rest else false
  | .extendC g :: rest => if f ≤ g then monoFrom g rest else false
  | .finalizeC :: rest => monoFrom f rest
  | .saveC :: rest => monoFrom f rest

theorem rangeDisjoint_of_lt {i a : Interval} (h : i.end_frame < a.start_frame) :
    RangeDisjoint i a := by
  intro n hn
  obtain ⟨⟨_, h1⟩, h2, _⟩ := hn
  omega

theorem rangeDisjoint_mono {a b x y : Interval}
    (hx : ∀ n, coversF x n → coversF a n) (hy : ∀ n, coversF y n → coversF b n)
    (h : RangeDisjoint a b) : RangeDisjoint x y :=
  fun n hn => h n ⟨hx n hn.1, hy n hn.2⟩

theorem split_self_pairwise (a : Interval) (f : Nat) :
    (splitInterval f a).Pairwise RangeDisjoint := by
  obtain ⟨s, e, t⟩ := a
  simp only [splitInterval]
  split_ifs with h1 h2 h3
  · refine List.pairwise_append.mpr
      ⟨List.pairwise_singleton _ _, List.pairwise_singleton _ _, ?_⟩
    intro x hx y hy
    rw [List.mem_singleton] at hx hy
    subst hx; subst hy
    exact rangeDisjoint_of_lt (by show f - 1 < f + 1; omega)
  · simp only [List.append_nil]
    exact List.pairwise_singleton _ _
  · simp only [List.nil_append]
    exact List.pairwise_singleton _ _
  · simp only [List.append_nil]
    exact List.Pairwise.nil
  · exact List.pairwise_singleton _ _

theorem process_pairwise (l : List Interval) (f : Nat)
    (hpw : l.Pairwise RangeDisjoint) :
    (process_overlapping_annotations l f).Pairwise RangeDisjoint := by
  rw [process_eq_flatMap]
  induction l with
  | nil => simp
  | cons a t ih =>
    rw [List.flatMap_cons, List.pairwise_append]
    obtain ⟨hhead, htail⟩ := List.pairwise_cons.mp hpw
    refine ⟨split_self_pairwise a f, ih htail, ?_⟩
    intro x hx y hy
    rw [List.mem_flatMap] at hy
    obtain ⟨b, hb, hyb⟩ := hy
    exact rangeDisjoint_mono (fun n hn => (split_covers hx n hn).1)
      (fun n hn => (split_covers hyb n hn).1) (hhead b hb)

/-- Every interval produced by overlap resolution at `g` from a list of
well-formed intervals whose ranges end at or before `g` is well-formed
and ends strictly before `g`. -/
theorem process_out {l : List Interval} {g : Nat}
    (hval : ∀ i ∈ l, i.start_frame ≤ i.end_frame)
    (hub : ∀ i ∈ l, i.end_frame ≤ g) :
    ∀ b ∈ process_overlapping_annotations l g,
      b.start_frame ≤ b.end_frame ∧ b.end_frame < g := by
  intro b hb
  rw [mem_process] at hb
  obtain ⟨a, ha, hba⟩ := hb
  have hv : b.start_frame ≤ b.end_frame := split_valid (hval a ha) hba
  have hco := split_covers hba b.end_frame ⟨hv, le_refl _⟩
  exact ⟨hv, lt_of_le_of_ne (le_trans hco.1.2 (hub a ha)) hco.2⟩

/-- Engine invariant, relative to the latest frame `f` the host has
supplied: every non-current interval stored in the list is well-formed,
ends at or before `f`, the stored intervals are pairwise disjoint, and an
attached current annotation is well-formed, ends at or before `f`, and
lies strictly beyond every other stored interval. -/
def InvAt (s : AppState) (f : Nat) : Prop :=
  (∀ i ∈ s.fixed, i.start_frame ≤ i.end_frame) ∧
  (∀ i ∈ s.fixed, i.end_frame ≤ f) ∧
  s.fixed.Pairwise RangeDisjoint ∧
  (∀ a, s.curAnn = some a → s.attached = true →
    a.start_frame ≤ a.end_frame ∧ a.end_frame ≤ f ∧
    ∀ i ∈ s.fixed, i.end_frame < a.start_frame)

theorem invAt_annots {s : AppState} {f : Nat} (h : InvAt s f) :
    noOverlap (annots s) ∧
    ∀ i ∈ annots s, i.start_frame ≤ i.end_frame ∧ i.end_frame ≤ f := by
  obtain ⟨hval, hub, hpw, hact⟩ := h
  unfold annots noOverlap
  rcases hc : s.curAnn with _ | a <;> rcases hb : s.attached
  case none.false | none.true =>
    simp only [List.append_nil]
    exact ⟨hpw, fun i hi => ⟨hval i hi, hub i hi⟩⟩
  case some.false =>
    simp only [List.append_nil]
    exact ⟨hpw, fun i hi => ⟨hval i hi, hub i hi⟩⟩
  case some.true =>
    obtain ⟨ha1, ha2, ha3⟩ := hact a hc hb
    constructor
    · rw [List.pairwise_append]
      refine ⟨hpw, List.pairwise_singleton _ _, ?_⟩
      intro i hi y hy
      rw [List.mem_singleton] at hy
      subst hy
      exact rangeDisjoint_of_lt (ha3 i hi)
    · intro i hi
      rw [List.mem_append, List.mem_singleton] at hi
      rcases hi with hi | rfl
      · exact ⟨hval i hi, hub i hi⟩
      · exact ⟨ha1, ha2⟩

theorem annotate_inv {s : AppState} {f g : Nat} {lab : String}
    (h : InvAt s f) (hfg : f ≤ g) : InvAt (annotate lab g s) g := by
  obtain ⟨hval, hub, hpw, hact⟩ := h
  have hL : ∀ L, (∀ i ∈ L, i.start_frame ≤ i.end_frame) → (∀ i ∈ L, i.end_frame ≤ g) →
      L.Pairwise RangeDisjoint →
      InvAt ⟨process_overlapping_annotations L g, some ⟨g, g, lab⟩, true⟩ g := by
    intro L hv hu hp
    refine ⟨fun i hi => (process_out hv hu i hi).1,
      fun i hi => le_of_lt (process_out hv hu i hi).2,
      process_pairwise L g hp, ?_⟩
    intro a ha _
    obtain rfl : a = ⟨g, g, lab⟩ := by injection ha with ha'; exact ha'.symm
    exact ⟨le_refl _, le_refl _, fun i hi => (process_out hv hu i hi).2⟩
  unfold annotate
  rcases hc : s.curAnn with _ | a <;> rcases hb : s.attached
  case none.false | none.true =>
    simp only [List.append_nil]
    exact hL s.fixed hval (fun i hi => le_trans (hub i hi) hfg) hpw
  case some.false =>
    simp only [List.append_nil]
    exact hL s.fixed hval (fun i hi => le_trans (hub i hi) hfg) hpw
  case some.true =>
    obtain ⟨ha1, ha2, ha3⟩ := hact a hc hb
    apply hL
    · intro i hi
      rw [List.mem_append, List.mem_singleton] at hi
      rcases hi with hi | rfl
      · exact hval i hi
      · simp
        omega
    · intro i hi
      rw [List.mem_append, List.mem_singleton] at hi
      rcases hi with hi | rfl
      · exact le_trans (hub i hi) hfg
      · simp
    · rw [List.pairwise_append]
      refine ⟨hpw, List.pairwise_singleton _ _, ?_⟩
      intro i hi y hy
      rw [List.mem_singleton] at hy
      subst hy
      exact rangeDisjoint_of_lt (by simpa using ha3 i hi)

theorem extend_inv {s : AppState} {f g : Nat}
    (h : InvAt s f) (hfg : f ≤ g) : InvAt (next_frame_extend g s) g := by
  obtain ⟨hval, hub, hpw, hact⟩ := h
  unfold next_frame_extend
  rcases hc : s.curAnn with _ | a
  · refine ⟨hval, fun i hi => le_trans (hub i hi) hfg, hpw, ?_⟩
    intro a' ha' _
    rw [hc] at ha'
    exact absurd ha' (by simp)
  · refine ⟨hval, fun i hi => le_trans (hub i hi) hfg, hpw, ?_⟩
    intro a' ha' hb'
    simp only at ha' hb'
    obtain rfl : a' = { a with end_frame := g } := by injection ha' with h'; exact h'.symm
    obtain ⟨ha1, ha2, ha3⟩ := hact a hc hb'
    exact ⟨by simp; omega, by simp, fun i hi => by simpa using ha3 i hi⟩

theorem finalize_inv {s : AppState} {f : Nat} (h : InvAt s f) :
    InvAt (finalizeAnn s) f := by
  obtain ⟨hno, hval⟩ := invAt_annots h
  exact ⟨fun i hi => (hval i hi).1, fun i hi => (hval i hi).2, hno,
    fun a ha => by simp only [finalizeAnn] at ha; exact absurd ha (by simp)⟩

theorem save_inv {s : AppState} {f : Nat} (_h : InvAt s f) :
    InvAt (save_annotations s).2 f := by
  refine ⟨by simp [save_annotations], by simp [save_annotations], by simp [save_annotations], ?_⟩
  intro a _ hb
  simp [save_annotations] at hb

theorem runCmds_inv :
    ∀ (cmds : List Cmd) (s : AppState) (f : Nat),
      InvAt s f → monoFrom f cmds = true → ∃ g, InvAt (runCmds cmds s) g
  | [], s, f, h, _ => ⟨f, h⟩
  | .beginC l g :: rest, s, f, h, hm => by
    simp only [monoFrom] at hm
    split at hm
    · exact runCmds_inv rest (annotate l g s) g (annotate_inv h (by assumption)) hm
    · exact absurd hm (by simp)
  | .extendC g :: rest, s, f, h, hm => by
    simp only [monoFrom] at hm
    split at hm
    · exact runCmds_inv rest (next_frame_extend g s) g (extend_inv h (by assumption)) hm
    · exact absurd hm (by simp)
  | .finalizeC :: rest, s, f, h, hm =>
    runCmds_inv rest (finalizeAnn s) f (finalize_inv h) hm
  | .saveC :: rest, s, f, h, hm =>
    runCmds_inv rest (save_annotations s).2 f (save_inv h) hm

theorem invAt_empty : InvAt emptyState 0 := by
  refine ⟨by simp [emptyState], by simp [emptyState], by simp [emptyState], ?_⟩
  intro a ha
  simp [emptyState] at ha

theorem splitInterval_interior {s e f : Nat} (lab : String) (h1 : s < f) (h2 : f < e) :
    splitInterval f ⟨s, e, lab⟩ = [⟨s, f - 1, lab⟩, ⟨f + 1, e, lab⟩] := by
  have e1 : s ≤ f := Nat.le_of_lt h1
  have e2 : f ≤ e := Nat.le_of_lt h2
  simp [splitInterval, e1, e2, h1, h2]

theorem splitInterval_point {f : Nat} (lab : String) :
    splitInterval f ⟨f, f, lab⟩ = [] := by
  simp [splitInterval]

theorem splitInterval_left_end {e f : Nat} (lab : String) (h : f < e) :
    splitInterval f ⟨f, e, lab⟩ = [⟨f + 1, e, lab⟩] := by
  simp [splitInterval, Nat.le_of_lt h, h]

theorem splitInterval_right_end {s f : Nat} (lab : String) (h : s < f) :
    splitInterval f ⟨s, f, lab⟩ = [⟨s, f - 1, lab⟩] := by
  simp [splitInterval, Nat.le_of_lt h, h]

theorem splitInterval_untouched {a : Interval} {f : Nat} (h : ¬ coversF a f) :
    splitInterval f a = [a] := by
  unfold splitInterval
  rw [if_neg (show ¬(a.start_frame ≤ f ∧ f ≤ a.end_frame) from h)]

theorem process_frees_frame {l : List Interval} {f : Nat} :
    ∀ b ∈ process_overlapping_annotations l f, ¬ coversF b f := by
  intro b hb
  rw [mem_process] at hb
  obtain ⟨a, _, hba⟩ := hb
  exact split_not_covers hba

/-- C2: overlap resolution transforms each interval containing `at_frame`
by the four-way case analysis of `process_overlapping_annotations`
(interior split, degenerate drop, left truncation, right truncation),
and no interval retained after resolution covers `at_frame`. -/
theorem c2_overlap_resolution_cases (f : Nat) (l : List Interval) :
    (∀ s e lab, s < f → f < e →
      splitInterval f ⟨s, e, lab⟩ = [⟨s, f - 1, lab⟩, ⟨f + 1, e, lab⟩]) ∧
    (∀ lab, splitInterval f ⟨f, f, lab⟩ = []) ∧
    (∀ e lab, f < e → splitInterval f ⟨f, e, lab⟩ = [⟨f + 1, e, lab⟩]) ∧
    (∀ s lab, s < f → splitInterval f ⟨s, f, lab⟩ = [⟨s, f - 1, lab⟩]) ∧
    (∀ b ∈ process_overlapping_annotations l f, ¬ coversF b f) :=
  ⟨fun _ _ lab h1 h2 => splitInterval_interior lab h1 h2,
   fun lab => splitInterval_point lab,
   fun _ lab h => splitInterval_left_end lab h,
   fun _ lab h => splitInterval_right_end lab h,
   process_frees_frame⟩

theorem c2_overlap_resolution_cases_witness :
    splitInterval 5 ⟨2, 8, "Upside Down"⟩ = [⟨2, 4, "Upside Down"⟩, ⟨6, 8, "Upside Down"⟩] :=
  (c2_overlap_resolution_cases 5 [⟨2, 8, "Upside Down"⟩]).1 2 8 "Upside Down"
    (by decide) (by decide)

/-- The set of frames covered by an interval (its closed range). -/
def framesOf (i : Interval) : Finset Nat :=
  Finset.Icc i.start_frame i.end_frame

/-- C4: splitting an interval at a strictly interior frame keeps every
covered frame except exactly `at_frame`: the two pieces cover
`(e - s + 1) - 1` frames in total, and their union is the original range
minus the split frame (which the new interval begun there claims). -/
theorem c4_interior_split_conservation (s e f : Nat) (lab : String)
    (h1 : s < f) (h2 : f < e) :
    splitInterval f ⟨s, e, lab⟩ = [⟨s, f - 1, lab⟩, ⟨f + 1, e, lab⟩] ∧
    (framesOf ⟨s, f - 1, lab⟩).card + (framesOf ⟨f + 1, e, lab⟩).card = (e - s + 1) - 1 ∧
    (framesOf ⟨s, e, lab⟩).card = e - s + 1 ∧
    framesOf ⟨s, f - 1, lab⟩ ∪ framesOf ⟨f + 1, e, lab⟩ = framesOf ⟨s, e, lab⟩ \ {f} ∧
    f ∈ framesOf ⟨s, e, lab⟩ := by
  refine ⟨splitInterval_interior lab h1 h2, ?_, ?_, ?_, ?_⟩
  · simp only [framesOf, Nat.card_Icc]
    omega
  · simp only [framesOf, Nat.card_Icc]
    omega
  · ext n
    simp only [framesOf, Finset.mem_union, Finset.mem_Icc, Finset.mem_sdiff,
      Finset.mem_singleton]
    omega
  · simp only [framesOf, Finset.mem_Icc]
    omega

theorem c4_interior_split_conservation_witness :
    splitInterval 5 ⟨3, 8, "Upside Down"⟩ = [⟨3, 4, "Upside Down"⟩, ⟨6, 8, "Upside Down"⟩] ∧
    (framesOf ⟨3, 4, "Upside Down"⟩).card + (framesOf ⟨6, 8, "Upside Down"⟩).card
      = (8 - 3 + 1) - 1 ∧
    (framesOf ⟨3, 8, "Upside Down"⟩).card = 8 - 3 + 1 ∧
    framesOf ⟨3, 4, "Upside Down"⟩ ∪ framesOf ⟨6, 8, "Upside Down"⟩
      = framesOf ⟨3, 8, "Upside Down"⟩ \ {5} ∧
    5 ∈ framesOf ⟨3, 8, "Upside Down"⟩ :=
  c4_interior_split_conservation 3 8 5 "Upside Down" (by decide) (by decide)

/-- C10: overlap resolution is the in-place flat-map of the per-interval
split: intervals whose closed range does not contain the frame are kept
verbatim, and every retained or replacement interval stays in the relative
position of its source interval. -/
theorem c10_untouched_kept_in_order (l : List Interval) (f : Nat) :
    process_overlapping_annotations l f = l.flatMap (splitInterval f) ∧
    ∀ a : Interval, ¬ coversF a f → splitInterval f a = [a] :=
  ⟨process_eq_flatMap l f, fun _ h => splitInterval_untouched h⟩

theorem c10_untouched_kept_in_order_witness :
    splitInterval 5 ⟨7, 9, "Upside Down"⟩ = [⟨7, 9, "Upside Down"⟩] :=
  (c10_untouched_kept_in_order [] 5).2 ⟨7, 9, "Upside Down"⟩ (by decide)

/-- Python's builtin round() applied to the exact nonnegative rational
num/den (den > 0): nearest integer, ties to the even integer. The painting
code computes this value through floats; the model uses the exact rational. -/
def pyRound (num den : Nat) : Nat :=
  if 2 * (num % den) < den then num / den
  else if den < 2 * (num % den) then num / den + 1
  else if num / den % 2 = 0 then num / den else num / den + 1

/-- Line 54 of `CustomTimeline.paintEvent`:
`start_x = int(round((start_frame / self.total_frames) * rect.width()))`. -/
def start_x (start_frame total width : Nat) : Nat :=
  pyRound (start_frame * width) total

/-- Line 55: `end_x = int(round(((end_frame + 1) / self.total_frames) * rect.width()))`. -/
def end_x (end_frame total width : Nat) : Nat :=
  pyRound ((end_frame + 1) * width) total

/-- Lines 57-59: `width = end_x - start_x; if width < 1: width = 1`.
Python subtraction can go negative, so the difference is an integer. -/
def spanWidth (start_frame end_frame total width : Nat) : Int :=
  if ((end_x end_frame total width : Int) - (start_x start_frame total width : Int)) < 1
  then 1
  else (end_x end_frame total width : Int) - (start_x start_frame total width : Int)

/-- C7: the painted span runs from the rounded projection of
`start_frame` to the rounded projection of `end_frame + 1` and its width
is `max(1, end_x - start_x)`; in particular it is at least one pixel. -/
theorem c7_span_visibility_floor (s e total w : Nat) (_ht : 0 < total) (_hw : 1 ≤ w) :
    spanWidth s e total w
        = max 1 ((end_x e total w : Int) - (start_x s total w : Int)) ∧
      1 ≤ spanWidth s e total w := by
  unfold spanWidth
  constructor
  · split_ifs with h
    · exact (max_eq_left (by omega)).symm
    · exact (max_eq_right (by omega)).symm
  · split_ifs with h
    · exact le_refl 1
    · omega

theorem c7_span_visibility_floor_witness :
    spanWidth 0 0 10 5 = max 1 ((end_x 0 10 5 : Int) - (start_x 0 10 5 : Int)) ∧
      1 ≤ spanWidth 0 0 10 5 :=
  c7_span_visibility_floor 0 0 10 5 (by decide) (by decide)

/-- C1 (amended): for every sequence of begin/extend/finalize commands
whose frame arguments are non-decreasing (forward playback), after each
call the stored intervals, the active one included, are pairwise
non-overlapping: no frame lies in the closed ranges of two distinct
stored intervals. (Unrestricted sequences can violate this; see the
counterexample, where a begin at an earlier frame leaves an interval to
the right of the new active one and a later extension crosses it.) -/
theorem c1_monotone_nonoverlap (cmds : List Cmd)
    (_hnosave : Cmd.saveC ∉ cmds) (hmono : monoFrom 0 cmds = true) :
    noOverlap (annots (runCmds cmds emptyState)) := by
  obtain ⟨g, hg⟩ := runCmds_inv cmds emptyState 0 invAt_empty hmono
  exact (invAt_annots hg).1

theorem c1_monotone_nonoverlap_witness :
    noOverlap (annots (runCmds [Cmd.beginC "Upside Down" 10, Cmd.extendC 12,
      Cmd.beginC "Right Side Up" 20, Cmd.finalizeC] emptyState)) :=
  c1_monotone_nonoverlap
    [Cmd.beginC "Upside Down" 10, Cmd.extendC 12, Cmd.beginC "Right Side Up" 20,
      Cmd.finalizeC] (by decide) (by decide)

/-- C1 as stated is false: after begin("Upside Down", 0),
begin("Right Side Up", 100), begin("Being flipped", 50), extend(51) the
stored intervals contain [51, 99] and [50, 51], which share frame 51. -/
theorem c1_counterexample :
    ¬ noOverlap (annots (runCmds [Cmd.beginC "Upside Down" 0,
      Cmd.beginC "Right Side Up" 100, Cmd.beginC "Being flipped" 50,
      Cmd.extendC 51] emptyState)) := by
  intro h
  have e : annots (runCmds [Cmd.beginC "Upside Down" 0,
      Cmd.beginC "Right Side Up" 100, Cmd.beginC "Being flipped" 50,
      Cmd.extendC 51] emptyState)
      = [⟨0, 49, "Upside Down"⟩, ⟨51, 99, "Upside Down"⟩,
         ⟨100, 50, "Right Side Up"⟩, ⟨50, 51, "Being flipped"⟩] := by decide
  rw [e] at h
  unfold noOverlap at h
  have h2 := (List.pairwise_cons.mp h).2
  have hd := (List.pairwise_cons.mp h2).1 ⟨50, 51, "Being flipped"⟩ (by decide)
  exact hd 51 ⟨by decide, by decide⟩

/-- C3 (amended): for every sequence of begin/extend/finalize/export
commands whose frame arguments are non-decreasing, every stored interval
satisfies 0 ≤ start_frame ≤ end_frame. (Unrestricted sequences can
silently store an interval with end_frame < start_frame; see the
counterexample, where a begin at a frame before the active interval's
start closes it inverted.) -/
theorem c3_monotone_wellformed (cmds : List Cmd) (hmono : monoFrom 0 cmds = true) :
    ∀ i ∈ annots (runCmds cmds emptyState),
      0 ≤ i.start_frame ∧ i.start_frame ≤ i.end_frame := by
  obtain ⟨g, hg⟩ := runCmds_inv cmds emptyState 0 invAt_empty hmono
  intro i hi
  exact ⟨Nat.zero_le _, ((invAt_annots hg).2 i hi).1⟩

theorem c3_monotone_wellformed_witness :
    0 ≤ (⟨3, 7, "Upside Down"⟩ : Interval).start_frame ∧
      (⟨3, 7, "Upside Down"⟩ : Interval).start_frame
        ≤ (⟨3, 7, "Upside Down"⟩ : Interval).end_frame :=
  c3_monotone_wellformed [Cmd.beginC "Upside Down" 3, Cmd.extendC 7, Cmd.finalizeC]
    (by decide) ⟨3, 7, "Upside Down"⟩ (by decide)

/-- C3 as stated is false: begin("Upside Down", 10) then
begin("Right Side Up", 5) silently stores the interval [10, 5] with
end_frame < start_frame. -/
theorem c3_counterexample :
    ∃ i ∈ annots (runCmds [Cmd.beginC "Upside Down" 10,
      Cmd.beginC "Right Side Up" 5] emptyState), i.end_frame < i.start_frame := by
  decide

/-- C5: for a timeline with no current annotation, loading back the rows
produced by saving yields the same stored intervals (the tabular file is
modelled at row level; pandas round-trips the integer fields and the label
strings of this application losslessly). -/
theorem c5_save_load_roundtrip (s : AppState) (h : s.curAnn = none) :
    annots (load_annotations (save_annotations s).1 (save_annotations s).2) = annots s := by
  simp [annots, save_annotations, load_annotations, h]

theorem c5_save_load_roundtrip_witness :
    annots (load_annotations
        (save_annotations (load_annotations [⟨0, 5, "Upside Down"⟩] emptyState)).1
        (save_annotations (load_annotations [⟨0, 5, "Upside Down"⟩] emptyState)).2)
      = annots (load_annotations [⟨0, 5, "Upside Down"⟩] emptyState) :=
  c5_save_load_roundtrip (load_annotations [⟨0, 5, "Upside Down"⟩] emptyState) rfl

/-- The rows are sorted by start_frame in ascending order. -/
def sortedByStart (l : List Interval) : Prop :=
  l.Pairwise (fun a b => a.start_frame ≤ b.start_frame)

instance (l : List Interval) : Decidable (sortedByStart l) := by
  unfold sortedByStart
  infer_instance

/-- C6 (amended): `save_annotations` returns the current stored intervals
in list (insertion) order, the current annotation included with its
current `end_frame` as the last element; it does not sort the rows by
`start_frame`. -/
theorem c6_save_in_insertion_order (s : AppState) :
    (save_annotations s).1 = annots s ∧
    ∀ a, s.curAnn = some a → s.attached = true →
      (save_annotations s).1 = s.fixed ++ [a] := by
  refine ⟨rfl, ?_⟩
  intro a h1 h2
  simp [save_annotations, annots, h1, h2]

theorem c6_save_in_insertion_order_witness :
    (save_annotations (annotate "Upside Down" 3 emptyState)).1
      = (annotate "Upside Down" 3 emptyState).fixed ++ [⟨3, 3, "Upside Down"⟩] :=
  (c6_save_in_insertion_order (annotate "Upside Down" 3 emptyState)).2
    ⟨3, 3, "Upside Down"⟩ rfl rfl

/-- C6 as stated is false: after begin("Upside Down", 0),
begin("Right Side Up", 100), begin("Being flipped", 50) the saved rows are
[0,49], [51,99], [100,50], [50,50] in insertion order, whose start frames
0, 51, 100, 50 are not ascending. -/
theorem c6_counterexample :
    ¬ sortedByStart (save_annotations (runCmds [Cmd.beginC "Upside Down" 0,
      Cmd.beginC "Right Side Up" 100, Cmd.beginC "Being flipped" 50]
        emptyState)).1 := by
  decide

/-- C8 (amended): after `annotate` (begin) returns, the current annotation
equals {at_frame, at_frame, label} and IS already the last element of the
stored list (line 389 appends it); a previously attached current
annotation was closed in place with its `end_frame` set to `at_frame`
(it was already in the list, not appended at closing time) and is part of
the list handed to overlap resolution. -/
theorem c8_begin_effect (s : AppState) (a : Interval) (lab : String) (f : Nat)
    (h1 : s.curAnn = some a) (h2 : s.attached = true) :
    (annotate lab f s).curAnn = some ⟨f, f, lab⟩ ∧
    annots (annotate lab f s)
      = process_overlapping_annotations (s.fixed ++ [⟨a.start_frame, f, a.type⟩]) f
        ++ [⟨f, f, lab⟩] ∧
    ⟨f, f, lab⟩ ∈ annots (annotate lab f s) := by
  refine ⟨rfl, ?_, ?_⟩
  · simp [annotate, annots, h1, h2]
  · simp [annotate, annots]

theorem c8_begin_effect_witness :
    (annotate "Right Side Up" 20 (annotate "Upside Down" 10 emptyState)).curAnn
        = some ⟨20, 20, "Right Side Up"⟩ ∧
      annots (annotate "Right Side Up" 20 (annotate "Upside Down" 10 emptyState))
        = process_overlapping_annotations
            ((annotate "Upside Down" 10 emptyState).fixed ++ [⟨10, 20, "Upside Down"⟩]) 20
          ++ [⟨20, 20, "Right Side Up"⟩] ∧
      ⟨20, 20, "Right Side Up"⟩
        ∈ annots (annotate "Right Side Up" 20 (annotate "Upside Down" 10 emptyState)) :=
  c8_begin_effect (annotate "Upside Down" 10 emptyState) ⟨10, 10, "Upside Down"⟩
    "Right Side Up" 20 rfl rfl

/-- C8 as stated is false: right after begin("Upside Down", 10) on the
empty timeline, the current annotation {10, 10, "Upside Down"} is already
an element of the stored intervals list. -/
theorem c8_counterexample :
    (annotate "Upside Down" 10 emptyState).curAnn = some ⟨10, 10, "Upside Down"⟩ ∧
    ⟨10, 10, "Upside Down"⟩ ∈ annots (annotate "Upside Down" 10 emptyState) := by
  decide

/-- C9 (amended): saving resets the stored interval list to empty, so for
every timeline that currently stores at least one interval two consecutive
exports differ: the second export sees no intervals. (Two consecutive
exports of an already-empty timeline are equal, both empty.) -/
theorem c9_save_resets (s : AppState) (h : annots s ≠ []) :
    (save_annotations s).2.fixed = [] ∧
    annots (save_annotations s).2 = [] ∧
    (save_annotations (save_annotations s).2).1 = [] ∧
    (save_annotations s).1 ≠ (save_annotations (save_annotations s).2).1 := by
  have hsnd : annots (save_annotations s).2 = [] := by
    rcases hc : s.curAnn with _ | a <;> simp [annots, save_annotations, hc]
  refine ⟨rfl, hsnd, hsnd, ?_⟩
  show annots s ≠ annots (save_annotations s).2
  rw [hsnd]
  exact h

theorem c9_save_resets_witness :
    (save_annotations (load_annotations [⟨0, 1, "Upside Down"⟩] emptyState)).2.fixed = [] ∧
    annots (save_annotations (load_annotations [⟨0, 1, "Upside Down"⟩] emptyState)).2 = [] ∧
    (save_annotations
      (save_annotations (load_annotations [⟨0, 1, "Upside Down"⟩] emptyState)).2).1 = [] ∧
    (save_annotations (load_annotations [⟨0, 1, "Upside Down"⟩] emptyState)).1
      ≠ (save_annotations
          (save_annotations (load_annotations [⟨0, 1, "Upside Down"⟩] emptyState)).2).1 :=
  c9_save_resets (load_annotations [⟨0, 1, "Upside Down"⟩] emptyState) (by decide)

/-- C9 as stated is false on the empty timeline: two consecutive exports
both return the empty row list. -/
theorem c9_counterexample :
    (save_annotations (save_annotations emptyState).2).1 = (save_annotations emptyState).1 :=
  rfl

end Flipper
